import Mathlib

/-!
Verification of the silence-removal core of `CutZero1.py` (`SilenceRemover.run`).

The embedding models the worker with exact rationals in place of Python
floats: time arithmetic, RMS levels and thresholds become `ℚ`, `np.arange`
becomes the explicit list of its generated values (numpy generates
`ceil(stop/step)` entries `i * step`), Python's truncating `int()` becomes
`pyInt`, and the Qt signals (`status`, `progress`, `finished`, `error`)
become an explicit event list.  External media decoding is abstracted by a
`Media` record giving the duration, the RMS level of each analysis window,
whether a window's sub-clip is `None`, and whether the final save raises.
-/

namespace CutZero

/-- One Qt signal emission of `SilenceRemover`. -/
inductive Event where
  | status : String → Event
  | progress : ℤ → Event
  | finished : String → Event
  | error : String → Event
  deriving DecidableEq

/-- Python `str.lower()` (ASCII paths). -/
def pyLower (s : String) : String := String.map Char.toLower s

/-- The audio-only extensions tested in `SilenceRemover.__init__` (line 21). -/
def audio_extensions : List String := [".mp3", ".wav", ".ogg", ".flac", ".aac"]

/-- `input_path.lower().endswith(('.mp3', '.wav', '.ogg', '.flac', '.aac'))`
(line 21 of `CutZero1.py`). -/
def is_audio_only (input_path : String) : Bool :=
  audio_extensions.any (fun e => (pyLower input_path).endsWith e)

/-- Index of the last occurrence of `c` in `l`, `-1` if absent
(Python `str.rfind`). -/
def lastIndexOf (c : Char) (l : List Char) : ℤ :=
  l.enum.foldl (fun acc p => if p.2 = c then (p.1 : ℤ) else acc) (-1)

/-- `os.path.splitext` (posixpath): split off the extension at the last dot of
the basename, unless every character of the basename before that dot is a
dot. -/
def splitext (s : String) : String × String :=
  let p := s.toList
  let sepIndex := lastIndexOf '/' p
  let dotIndex := lastIndexOf '.' p
  if decide (sepIndex < dotIndex) &&
      (List.range p.length).any (fun j =>
        decide (sepIndex < (j : ℤ)) && decide ((j : ℤ) < dotIndex) &&
        (p.getD j '.' != '.')) then
    (String.mk (p.take dotIndex.toNat), String.mk (p.drop dotIndex.toNat))
  else
    (s, "")

/-- The output path computed in `run` (lines 94-109):
`os.path.splitext(input_path)[0] + "_no_silence"` followed by the original
extension for audio-only input and by the fixed `".mp4"` otherwise. -/
def output_path (input_path : String) : String :=
  let base := (splitext input_path).1 ++ "_no_silence"
  if is_audio_only input_path then base ++ (splitext input_path).2
  else base ++ ".mp4"

/-- Python `int(q)`: truncation toward zero. -/
def pyInt (q : ℚ) : ℤ := q.num.tdiv (q.den : ℤ)

/-- Number of values generated by `np.arange(0, stop, step)`:
`ceil(stop / step)`. -/
def arangeLen (stop step : ℚ) : ℕ := (Int.ceil (stop / step)).toNat

/-- The window start times walked by the analysis loop,
`np.arange(0, duration, chunk_duration)` (line 46): the values `i * step`
for `i < ceil(duration / step)`. -/
def windowStarts (chunk_duration duration : ℚ) : List ℚ :=
  (List.range (arangeLen duration chunk_duration)).map
    (fun i : ℕ => (i : ℚ) * chunk_duration)

/-- One padded, clamped segment closed from a run `[segment_start, prev]`
of non-silent window starts (lines 77-80 and 85-88):
`[max(0, segment_start - chunk_duration), min(duration, prev + chunk_duration)]`. -/
def segOf (chunk_duration duration segment_start prev : ℚ) : ℚ × ℚ :=
  (max 0 (segment_start - chunk_duration), min duration (prev + chunk_duration))

/-- The segment-building loop of `run` (lines 75-88), with the trailing
"last clip" emission: state is the current run's `segment_start` and `prev`. -/
def buildLoop (chunk_duration duration : ℚ) :
    ℚ → ℚ → List ℚ → List (ℚ × ℚ)
  | segment_start, prev, [] =>
      [segOf chunk_duration duration segment_start prev]
  | segment_start, prev, t :: ts =>
      if chunk_duration * 1.5 < t - prev then
        segOf chunk_duration duration segment_start prev ::
          buildLoop chunk_duration duration t t ts
      else
        buildLoop chunk_duration duration segment_start t ts

/-- Segment building on the whole non-silent time list (lines 71-88);
`run` only reaches it with a non-empty list. -/
def buildSegments (chunk_duration duration : ℚ) : List ℚ → List (ℚ × ℚ)
  | [] => []
  | t :: ts => buildLoop chunk_duration duration t t ts

/-- Abstraction of the decoded media and of the external I/O outcomes a run
can meet: total duration, per-window RMS level, whether a window's extracted
chunk is `None`, whether the container has an audio track, and whether the
final write raises (carrying the exception message). -/
structure Media where
  duration : ℚ
  hasAudio : Bool
  level : ℚ → ℚ
  chunkNone : ℚ → Bool
  saveFails : Option String

/-- `chunk_count = int(duration / self.chunk_duration)` (line 45). -/
def chunkCount (m : Media) (chunk_duration : ℚ) : ℤ :=
  pyInt (m.duration / chunk_duration)

/-- The analysis loop (lines 46-56) over the enumerated window starts:
appends `(t, level t)` when the chunk is not `None`, then computes
`10 + int((i / chunk_count) * 30)` — which raises `ZeroDivisionError` when
`chunk_count = 0` — and emits it as a progress event.  Returns the collected
chunks, the emitted events, and the raised message if any. -/
def analyzeLoop (m : Media) (cc : ℤ) :
    List (ℕ × ℚ) → List (ℚ × ℚ) × List Event →
    List (ℚ × ℚ) × List Event × Option String
  | [], acc => (acc.1, acc.2, none)
  | (i, t) :: rest, acc =>
      let chunks1 := if m.chunkNone t then acc.1 else acc.1 ++ [(t, m.level t)]
      if cc = 0 then
        (chunks1, acc.2, some "division by zero")
      else
        analyzeLoop m cc rest
          (chunks1,
           acc.2 ++ [Event.progress (10 + pyInt (((i : ℚ) / (cc : ℚ)) * 30))])

/-- Outcome of one `run`: the emitted events in order, whether
`media.close()` executed, whether an output file was written, and the
segments handed to clip extraction (empty if never built). -/
structure RunOutcome where
  events : List Event
  mediaClosed : Bool
  wroteOutput : Bool
  segments : List (ℚ × ℚ)
  deriving DecidableEq

/-- The analysis phase of `run` (lines 44-56): the analysis loop run over
the enumerated window starts, beginning from an empty chunk list and no
emitted events. -/
def analysisOf (chunk_duration : ℚ) (m : Media) :
    List (ℚ × ℚ) × List Event × Option String :=
  analyzeLoop m (chunkCount m chunk_duration)
    ((windowStarts chunk_duration m.duration).enum) ([], [])

/-- The non-silent chunk start times (lines 59-63): start times of the
collected chunks whose volume strictly exceeds the threshold, in collection
order. -/
def nonsilentOf (threshold chunk_duration : ℚ) (m : Media) : List ℚ :=
  (((analysisOf chunk_duration m).1.filter
    (fun c => decide (threshold < c.2))).map Prod.fst)

/-- `SilenceRemover.run` (lines 23-128).  The `try` body is modelled
branch by branch; a raised exception is caught by the `except` clause,
which emits a single `error` event with the exception's message.  Note that
`media.close()` (line 123) sits inside the `try` after the save, so it is
reached only on the success path. -/
def run (input_path : String) (threshold chunk_duration : ℚ) (m : Media) :
    RunOutcome :=
  if is_audio_only input_path = false && m.hasAudio = false then
    ⟨[Event.status "Loading media...",
      Event.error "No audio track found in the file!"], false, false, []⟩
  else
    let e1 := [Event.status "Loading media...", Event.progress 10,
      Event.status "Analyzing audio..."]
    match (analysisOf chunk_duration m).2.2 with
    | some msg =>
        ⟨e1 ++ (analysisOf chunk_duration m).2.1 ++ [Event.error msg],
         false, false, []⟩
    | none =>
      let e3 := e1 ++ (analysisOf chunk_duration m).2.1 ++
        [Event.status "Detecting silent parts...", Event.progress 50,
         Event.status "Creating clips..."]
      if (nonsilentOf threshold chunk_duration m).isEmpty then
        ⟨e3 ++ [Event.error "No non-silent parts found in the media!"],
         false, false, []⟩
      else
        let clips := buildSegments chunk_duration m.duration
          (nonsilentOf threshold chunk_duration m)
        let e5 := e3 ++ [Event.progress 70, Event.status "Combining clips...",
          Event.status
            (if is_audio_only input_path then "Saving audio..."
             else "Saving video...")]
        match m.saveFails with
        | some msg => ⟨e5 ++ [Event.error msg], false, false, clips⟩
        | none =>
            ⟨e5 ++ [Event.progress 100,
              Event.finished (output_path input_path)], true, true, clips⟩

/-- The payloads of the progress events of an event list, in emission
order. -/
def progressValues (evs : List Event) : List ℤ :=
  evs.filterMap (fun e => match e with | Event.progress n => some n | _ => none)

/-- Whether an event is terminal (`finished` or `error`). -/
def isTerminal : Event → Bool
  | Event.finished _ => true
  | Event.error _ => true
  | _ => false

/-- C1: on the non-silent start times `[0.0, 0.1, 0.2, 0.5, 0.6]` with
`chunk_duration = 0.1` and `duration = 1.0`, segment building yields exactly
the two segments `[0.0, 0.3]` and `[0.4, 0.7]`: the gap `0.5 - 0.2 = 0.3`
exceeds the tolerance `0.15`, and each run is padded by `0.1` on each side
and clamped to `[0, 1]`. -/
theorem buildSegments_example :
    buildSegments (1/10) 1 [0, 1/10, 2/10, 1/2, 6/10] =
      [(0, 3/10), (2/5, 7/10)] := by
  with_unfolding_all decide

/-- C5 counterexample: with `chunk_duration = 0.1` and `duration = 0.25` the
analysis loop walks `ceil(0.25 / 0.1) = 3` windows (`np.arange` generates
`ceil(stop / step)` values), not `floor(0.25 / 0.1) = 2` as the claim
states. -/
theorem windowStarts_floor_counterexample :
    (windowStarts (1/10) (1/4)).length = 3 ∧
    pyInt ((1/4 : ℚ) / (1/10)) = 2 ∧
    (windowStarts (1/10) (1/4)).length ≠ (pyInt ((1/4 : ℚ) / (1/10))).toNat := by
  with_unfolding_all decide

/-- C5 amended: the number of analysis windows equals
`ceil(duration / chunk_duration)` (which agrees with the floor exactly when
`chunk_duration` divides `duration`), and every window start lies in
`[0, duration)`. -/
theorem windowStarts_count_ceil (chunk_duration duration : ℚ)
    (hcd : 0 < chunk_duration) :
    (windowStarts chunk_duration duration).length =
      (Int.ceil (duration / chunk_duration)).toNat ∧
    ∀ t ∈ windowStarts chunk_duration duration, 0 ≤ t ∧ t < duration := by
  constructor
  · simp only [windowStarts, List.length_map, List.length_range, arangeLen]
  · intro t ht
    simp only [windowStarts, List.mem_map, List.mem_range, arangeLen] at ht
    obtain ⟨i, hi, rfl⟩ := ht
    refine ⟨mul_nonneg (Nat.cast_nonneg i) hcd.le, ?_⟩
    have h1 : (i : ℤ) < Int.ceil (duration / chunk_duration) := by omega
    have h2 : (i : ℚ) < duration / chunk_duration := by
      exact_mod_cast Int.lt_ceil.mp h1
    exact (lt_div_iff₀ hcd).mp h2

/-- C5 amended, witness at `chunk_duration = 0.1`, `duration = 0.25`. -/
theorem windowStarts_count_ceil_witness :
    (0 : ℚ) < 1/10 ∧
    ((windowStarts (1/10) (1/4)).length =
      (Int.ceil ((1/4 : ℚ) / (1/10))).toNat ∧
     ∀ t ∈ windowStarts (1/10) (1/4), 0 ≤ t ∧ t < 1/4) :=
  ⟨by norm_num, windowStarts_count_ceil (1/10) (1/4) (by norm_num)⟩

/-- C6: the output path is the input stem plus `"_no_silence"` plus an
extension — the original extension for audio-only input, the fixed `".mp4"`
otherwise; in particular `foo.wav ↦ foo_no_silence.wav` and
`foo.mov ↦ foo_no_silence.mp4`. -/
theorem output_path_spec :
    (∀ p : String, output_path p =
      (splitext p).1 ++ "_no_silence" ++
        (if is_audio_only p then (splitext p).2 else ".mp4")) ∧
    output_path "foo.wav" = "foo_no_silence.wav" ∧
    output_path "foo.mov" = "foo_no_silence.mp4" := by
  refine ⟨fun p => ?_, by with_unfolding_all decide, by with_unfolding_all decide⟩
  by_cases h : is_audio_only p <;> simp [output_path, h]

/-- C3: a run on media with `0 < duration < chunk_duration` does not fail
with the "No non-silent parts found" error: `np.arange(0, duration, 0.1)`
yields the single window start `0`, one chunk is analyzed, and the progress
computation `10 + int((i / chunk_count) * 30)` divides by
`chunk_count = int(duration / chunk_duration) = 0`, so the run dies with a
`ZeroDivisionError` ("division by zero"). -/
theorem short_media_zero_division :
    ((run "a.wav" (1/25) (1/10)
        ⟨1/20, true, fun _ => 0, fun _ => false, none⟩).events =
      [Event.status "Loading media...", Event.progress 10,
       Event.status "Analyzing audio...", Event.error "division by zero"]) ∧
    (windowStarts (1/10) (1/20)).length = 1 ∧
    chunkCount ⟨1/20, true, fun _ => 0, fun _ => false, none⟩ (1/10) = 0 := by
  with_unfolding_all decide

/-- C4 counterexample: an all-silent medium (constant level `0`, threshold
`1`) with `duration = 0.05 < chunk_duration = 0.1` terminates with the
`ZeroDivisionError` message, not with the "No non-silent parts found"
error, because the progress computation divides by `chunk_count = 0` before
classification is reached. -/
theorem all_silent_counterexample :
    (run "a.wav" 1 (1/10)
        ⟨1/20, true, fun _ => 0, fun _ => false, none⟩).events.getLast? =
      some (Event.error "division by zero") ∧
    Event.error "division by zero" ≠
      Event.error "No non-silent parts found in the media!" := by
  with_unfolding_all decide

/-- C2 counterexample: the strictly increasing input `[0, 0.16]` (times in
`[0, 1)`, `chunk_duration = 0.1`, gap `0.16 > 0.15`) produces the segments
`[0, 0.1]` and `[0.06, 0.26]`, which overlap: the first ends after the
second starts. -/
theorem buildSegments_overlap_counterexample :
    List.Chain' (· < ·) ([0, 16/100] : List ℚ) ∧
    (∀ t ∈ ([0, 16/100] : List ℚ), 0 ≤ t ∧ t < 1) ∧
    buildSegments (1/10) 1 [0, 16/100] = [(0, 1/10), (3/50, 13/50)] ∧
    ¬ ((1/10 : ℚ) ≤ 3/50) := by
  refine ⟨List.chain'_pair.mpr (by norm_num), ?_, ?_, ?_⟩ <;>
    with_unfolding_all decide

/-- C7 counterexample: on the unsorted input `[0.5, 0]` (both times in
`[0, 1)`) the single produced segment is `[0.4, 0.1]`, whose start is not
below its end. -/
theorem buildSegments_unsorted_counterexample :
    (∀ t ∈ ([1/2, 0] : List ℚ), 0 ≤ t ∧ t < 1) ∧
    buildSegments (1/10) 1 [1/2, 0] = [(2/5, 1/10)] ∧
    ¬ ((2/5 : ℚ) < 1/10) := by
  with_unfolding_all decide

/-- Every segment `segOf` closes from a run `s ≤ p` inside `[0, duration)`
is well-formed: `0 ≤ start < end ≤ duration`. -/
theorem segOf_wf (cd dur s p : ℚ) (hcd : 0 < cd) (hs0 : 0 ≤ s)
    (hsp : s ≤ p) (hpd : p < dur) :
    0 ≤ (segOf cd dur s p).1 ∧ (segOf cd dur s p).1 < (segOf cd dur s p).2 ∧
    (segOf cd dur s p).2 ≤ dur := by
  refine ⟨le_max_left _ _, ?_, min_le_left _ _⟩
  have h0d : 0 < dur := lt_of_le_of_lt (hs0.trans hsp) hpd
  apply max_lt
  · exact lt_min h0d (by linarith)
  · exact lt_min (by linarith) (by linarith)

/-- The segment closed from a run `s ≤ p` covers every time `x` of the run. -/
theorem segOf_covers (cd dur s p x : ℚ) (hcd : 0 < cd) (hs0 : 0 ≤ s)
    (hsx : s ≤ x) (hxp : x ≤ p) (hxd : x < dur) :
    (segOf cd dur s p).1 ≤ x ∧ x ≤ (segOf cd dur s p).2 := by
  constructor
  · exact max_le (by linarith) (by linarith)
  · exact le_min hxd.le (by linarith)

/-- The first segment emitted by `buildLoop` starts at
`max 0 (segment_start - chunk_duration)` and ends at `min duration (q +
chunk_duration)` for some `q ≥ prev` (the eventual `prev` of the first
run). -/
theorem buildLoop_head (cd dur : ℚ) (ts : List ℚ) :
    ∀ s p : ℚ, List.Chain (· ≤ ·) p ts →
      ∃ q tl, buildLoop cd dur s p ts =
        (max 0 (s - cd), min dur (q + cd)) :: tl ∧ p ≤ q := by
  induction ts with
  | nil =>
    intro s p _
    exact ⟨p, [], rfl, le_refl p⟩
  | cons t ts ih =>
    intro s p hch
    rw [List.chain_cons] at hch
    obtain ⟨hpt, hch⟩ := hch
    by_cases hgap : cd * 1.5 < t - p
    · exact ⟨p, buildLoop cd dur t t ts,
        by simp only [buildLoop, if_pos hgap]; rfl, le_refl p⟩
    · obtain ⟨q, tl, heq, hq⟩ := ih s t hch
      exact ⟨q, tl, by simp only [buildLoop, if_neg hgap]; exact heq,
        hpt.trans hq⟩

/-- Every segment produced by `buildLoop` from a state `0 ≤ s ≤ p < dur`
on a sorted suffix inside `[0, dur)` is well-formed. -/
theorem buildLoop_mem_bounds (cd dur : ℚ) (hcd : 0 < cd) (ts : List ℚ) :
    ∀ s p : ℚ, 0 ≤ s → s ≤ p → p < dur →
      List.Chain (· ≤ ·) p ts → (∀ t ∈ ts, t < dur) →
      ∀ seg ∈ buildLoop cd dur s p ts,
        0 ≤ seg.1 ∧ seg.1 < seg.2 ∧ seg.2 ≤ dur := by
  induction ts with
  | nil =>
    intro s p hs0 hsp hpd _ _ seg hseg
    simp only [buildLoop, List.mem_singleton] at hseg
    subst hseg
    exact segOf_wf cd dur s p hcd hs0 hsp hpd
  | cons t ts ih =>
    intro s p hs0 hsp hpd hch hmem seg hseg
    rw [List.chain_cons] at hch
    obtain ⟨hpt, hch⟩ := hch
    have htd : t < dur := hmem t (List.mem_cons_self t ts)
    have hmem' : ∀ x ∈ ts, x < dur := fun x hx =>
      hmem x (List.mem_cons_of_mem t hx)
    simp only [buildLoop] at hseg
    by_cases hgap : cd * 1.5 < t - p
    · rw [if_pos hgap] at hseg
      rcases List.mem_cons.mp hseg with h | h
      · subst h
        exact segOf_wf cd dur s p hcd hs0 hsp hpd
      · exact ih t t (by linarith) le_rfl htd hch hmem' seg h
    · rw [if_neg hgap] at hseg
      exact ih s t hs0 (hsp.trans hpt) htd hch hmem' seg hseg

/-- Every segment produced by `buildSegments` from a sorted input inside
`[0, dur)` is well-formed (shared helper). -/
theorem buildSegments_mem_bounds (cd dur : ℚ) (ts : List ℚ) (hcd : 0 < cd)
    (hsort : List.Chain' (· ≤ ·) ts)
    (hmem : ∀ t ∈ ts, 0 ≤ t ∧ t < dur) :
    ∀ seg ∈ buildSegments cd dur ts,
      0 ≤ seg.1 ∧ seg.1 < seg.2 ∧ seg.2 ≤ dur := by
  cases ts with
  | nil => simp [buildSegments]
  | cons t ts =>
    have hch : List.Chain (· ≤ ·) t ts := hsort
    exact buildLoop_mem_bounds cd dur hcd ts t t
      (hmem t (List.mem_cons_self t ts)).1 le_rfl
      (hmem t (List.mem_cons_self t ts)).2 hch
      (fun x hx => (hmem x (List.mem_cons_of_mem t hx)).2)

/-- C7 amended: on every non-empty, ascending input of times in
`[0, duration)` with positive `chunk_duration`, every produced segment
satisfies `0 ≤ start < end ≤ duration` — in particular a padded end is
clamped to `duration`, never beyond. -/
theorem buildSegments_bounds (cd dur : ℚ) (ts : List ℚ) (hcd : 0 < cd)
    (hsort : List.Chain' (· ≤ ·) ts)
    (hmem : ∀ t ∈ ts, 0 ≤ t ∧ t < dur) :
    ∀ seg ∈ buildSegments cd dur ts,
      0 ≤ seg.1 ∧ seg.1 < seg.2 ∧ seg.2 ≤ dur :=
  buildSegments_mem_bounds cd dur ts hcd hsort hmem

/-- C7 amended, witness at input `[0, 0.1, 0.5]`, `chunk_duration = 0.1`,
`duration = 1`. -/
theorem buildSegments_bounds_witness :
    ((0 : ℚ) < 1/10 ∧ List.Chain' (· ≤ ·) ([0, 1/10, 1/2] : List ℚ) ∧
      (∀ t ∈ ([0, 1/10, 1/2] : List ℚ), 0 ≤ t ∧ t < 1)) ∧
    ∀ seg ∈ buildSegments (1/10) 1 [0, 1/10, 1/2],
      0 ≤ seg.1 ∧ seg.1 < seg.2 ∧ seg.2 ≤ 1 := by
  have h1 : (0 : ℚ) < 1/10 := by norm_num
  have h2 : List.Chain' (· ≤ ·) ([0, 1/10, 1/2] : List ℚ) := by
    norm_num [List.chain'_cons, List.chain'_singleton]
  have h3 : ∀ t ∈ ([0, 1/10, 1/2] : List ℚ), 0 ≤ t ∧ t < 1 := by
    intro t ht
    fin_cases ht <;> norm_num
  exact ⟨⟨h1, h2, h3⟩, buildSegments_bounds (1/10) 1 [0, 1/10, 1/2] h1 h2 h3⟩

/-- On grid inputs, the gap test `t - prev > chunk_duration * 1.5` forces a
gap of at least two chunk durations, so a closed segment's padded end stays
at or before the next segment's padded start. -/
theorem buildLoop_chain (cd dur : ℚ) (hcd : 0 < cd) (ts : List ℚ) :
    ∀ s p : ℚ, (∀ t ∈ ts, ∃ k : ℕ, t = (k : ℚ) * cd) →
      (∃ kp : ℕ, p = (kp : ℚ) * cd) →
      List.Chain (· ≤ ·) p ts →
      List.Chain' (fun a b : ℚ × ℚ => a.2 ≤ b.1) (buildLoop cd dur s p ts) := by
  induction ts with
  | nil =>
    intro s p _ _ _
    exact List.chain'_singleton _
  | cons t ts ih =>
    intro s p hgrid hp hch
    rw [List.chain_cons] at hch
    obtain ⟨hpt, hch⟩ := hch
    obtain ⟨kp, hkp⟩ := hp
    obtain ⟨kt, hkt⟩ := hgrid t (List.mem_cons_self t ts)
    have hgrid' : ∀ x ∈ ts, ∃ k : ℕ, x = (k : ℚ) * cd := fun x hx =>
      hgrid x (List.mem_cons_of_mem t hx)
    simp only [buildLoop]
    by_cases hgap : cd * 1.5 < t - p
    · rw [if_pos hgap]
      obtain ⟨q, tl, heq, hq⟩ := buildLoop_head cd dur ts t t hch
      rw [heq, List.chain'_cons]
      constructor
      · show min dur (p + cd) ≤ max 0 (t - cd)
        have hgap' : cd * 1.5 < (kt : ℚ) * cd - (kp : ℚ) * cd := by
          rw [← hkt, ← hkp]
          exact hgap
        have h15 : (1.5 : ℚ) = 3/2 := by norm_num
        have hklt : kp + 1 < kt := by
          by_contra hcon
          push_neg at hcon
          have hle : (kt : ℚ) ≤ (kp : ℚ) + 1 := by exact_mod_cast hcon
          rw [h15] at hgap'
          nlinarith
        have hk2 : (kp : ℚ) + 2 ≤ (kt : ℚ) := by exact_mod_cast hklt
        have h2 : p + cd ≤ t - cd := by
          rw [hkp, hkt]
          nlinarith
        exact le_trans (min_le_right _ _) (le_trans h2 (le_max_right _ _))
      · rw [← heq]
        exact ih t t hgrid' ⟨kt, hkt⟩ hch
    · rw [if_neg hgap]
      exact ih s t hgrid' ⟨kt, hkt⟩ hch

/-- A pairwise-disjoint segment list whose members are well-formed is
strictly sorted by segment start. -/
theorem chain_disjoint_to_lt (l : List (ℚ × ℚ))
    (h1 : List.Chain' (fun a b : ℚ × ℚ => a.2 ≤ b.1) l)
    (h2 : ∀ seg ∈ l, seg.1 < seg.2) :
    List.Chain' (fun a b : ℚ × ℚ => a.1 < b.1) l := by
  induction l with
  | nil => exact List.chain'_nil
  | cons a l ih =>
    cases l with
    | nil => exact List.chain'_singleton _
    | cons b l =>
      rw [List.chain'_cons] at h1 ⊢
      refine ⟨lt_of_lt_of_le (h2 a (List.mem_cons_self a _)) h1.1,
        ih h1.2 (fun seg hseg => h2 seg (List.mem_cons_of_mem a hseg))⟩

/-- C2 amended: for every non-empty, strictly increasing input of
chunk-grid times (integer multiples of `chunk_duration`) inside
`[0, duration)`, the produced segments are non-overlapping (each end is at
most the next start) and strictly sorted by start. -/
theorem buildSegments_grid_sorted_disjoint (cd dur : ℚ) (ts : List ℚ)
    (hcd : 0 < cd)
    (hgrid : ∀ t ∈ ts, ∃ k : ℕ, t = (k : ℚ) * cd)
    (hsort : List.Chain' (· < ·) ts)
    (hmem : ∀ t ∈ ts, 0 ≤ t ∧ t < dur) :
    List.Chain' (fun a b : ℚ × ℚ => a.2 ≤ b.1) (buildSegments cd dur ts) ∧
    List.Chain' (fun a b : ℚ × ℚ => a.1 < b.1) (buildSegments cd dur ts) := by
  have hchain : List.Chain' (fun a b : ℚ × ℚ => a.2 ≤ b.1)
      (buildSegments cd dur ts) := by
    cases ts with
    | nil => exact List.chain'_nil
    | cons t ts =>
      have hlt : List.Chain (· < ·) t ts := hsort
      exact buildLoop_chain cd dur hcd ts t t
        (fun x hx => hgrid x (List.mem_cons_of_mem t hx))
        (hgrid t (List.mem_cons_self t ts))
        (hlt.imp (fun a b altb => le_of_lt altb))
  have hsort' : List.Chain' (· ≤ ·) ts := hsort.imp (fun a b h => le_of_lt h)
  refine ⟨hchain, chain_disjoint_to_lt _ hchain ?_⟩
  intro seg hseg
  exact (buildSegments_mem_bounds cd dur ts hcd hsort' hmem seg hseg).2.1

/-- C2 amended, witness at input `[0, 0.1, 0.5]` on the `0.1` grid with
`duration = 1`. -/
theorem buildSegments_grid_sorted_disjoint_witness :
    ((0 : ℚ) < 1/10 ∧
      (∀ t ∈ ([0, 1/10, 1/2] : List ℚ), ∃ k : ℕ, t = (k : ℚ) * (1/10)) ∧
      List.Chain' (· < ·) ([0, 1/10, 1/2] : List ℚ) ∧
      (∀ t ∈ ([0, 1/10, 1/2] : List ℚ), 0 ≤ t ∧ t < 1)) ∧
    (List.Chain' (fun a b : ℚ × ℚ => a.2 ≤ b.1)
        (buildSegments (1/10) 1 [0, 1/10, 1/2]) ∧
     List.Chain' (fun a b : ℚ × ℚ => a.1 < b.1)
        (buildSegments (1/10) 1 [0, 1/10, 1/2])) := by
  have h1 : (0 : ℚ) < 1/10 := by norm_num
  have hg : ∀ t ∈ ([0, 1/10, 1/2] : List ℚ), ∃ k : ℕ, t = (k : ℚ) * (1/10) := by
    intro t ht
    fin_cases ht
    · exact ⟨0, by norm_num⟩
    · exact ⟨1, by norm_num⟩
    · exact ⟨5, by norm_num⟩
  have hs : List.Chain' (· < ·) ([0, 1/10, 1/2] : List ℚ) := by
    norm_num [List.chain'_cons, List.chain'_singleton]
  have hm : ∀ t ∈ ([0, 1/10, 1/2] : List ℚ), 0 ≤ t ∧ t < 1 := by
    intro t ht
    fin_cases ht <;> norm_num
  exact ⟨⟨h1, hg, hs, hm⟩,
    buildSegments_grid_sorted_disjoint (1/10) 1 [0, 1/10, 1/2] h1 hg hs hm⟩

/-- `buildLoop` covers the current run's endpoints and every remaining
input time with some produced segment. -/
theorem buildLoop_cover (cd dur : ℚ) (hcd : 0 < cd) (ts : List ℚ) :
    ∀ s p : ℚ, 0 ≤ s → s ≤ p → p < dur →
      List.Chain (· ≤ ·) p ts → (∀ t ∈ ts, t < dur) →
      ∀ x, (x = s ∨ x = p ∨ x ∈ ts) →
        ∃ seg ∈ buildLoop cd dur s p ts, seg.1 ≤ x ∧ x ≤ seg.2 := by
  induction ts with
  | nil =>
    intro s p hs0 hsp hpd _ _ x hx
    refine ⟨segOf cd dur s p, by simp [buildLoop], ?_⟩
    rcases hx with h | h | h
    · rw [h]
      exact segOf_covers cd dur s p s hcd hs0 le_rfl hsp
        (lt_of_le_of_lt hsp hpd)
    · rw [h]
      exact segOf_covers cd dur s p p hcd hs0 hsp le_rfl hpd
    · cases h
  | cons t ts ih =>
    intro s p hs0 hsp hpd hch hmem x hx
    rw [List.chain_cons] at hch
    obtain ⟨hpt, hch⟩ := hch
    have htd : t < dur := hmem t (List.mem_cons_self t ts)
    have hmem' : ∀ y ∈ ts, y < dur := fun y hy =>
      hmem y (List.mem_cons_of_mem t hy)
    by_cases hgap : cd * 1.5 < t - p
    · have hlist : buildLoop cd dur s p (t :: ts) =
          segOf cd dur s p :: buildLoop cd dur t t ts := by
        simp only [buildLoop, if_pos hgap]
      rcases hx with h | h | h
      · refine ⟨segOf cd dur s p,
          by rw [hlist]; exact List.mem_cons_self _ _, ?_⟩
        rw [h]
        exact segOf_covers cd dur s p s hcd hs0 le_rfl hsp
          (lt_of_le_of_lt hsp hpd)
      · refine ⟨segOf cd dur s p,
          by rw [hlist]; exact List.mem_cons_self _ _, ?_⟩
        rw [h]
        exact segOf_covers cd dur s p p hcd hs0 hsp le_rfl hpd
      · have h0t : 0 ≤ t := le_trans (hs0.trans hsp) hpt
        have hx' : x = t ∨ x = t ∨ x ∈ ts := by
          rcases List.mem_cons.mp h with h' | h'
          · exact Or.inl h'
          · exact Or.inr (Or.inr h')
        obtain ⟨seg, hseg, hcov⟩ :=
          ih t t h0t le_rfl htd hch hmem' x hx'
        exact ⟨seg, by rw [hlist]; exact List.mem_cons_of_mem _ hseg, hcov⟩
    · have hlist : buildLoop cd dur s p (t :: ts) =
          buildLoop cd dur s t ts := by
        simp only [buildLoop, if_neg hgap]
      rcases hx with h | h | h
      · rw [hlist, h]
        exact ih s t hs0 (hsp.trans hpt) htd hch hmem' s (Or.inl rfl)
      · rw [hlist, h]
        obtain ⟨q, tl, heq, hq⟩ := buildLoop_head cd dur ts s t hch
        refine ⟨(max 0 (s - cd), min dur (q + cd)),
          by rw [heq]; exact List.mem_cons_self _ _, ?_, ?_⟩
        · exact max_le (hs0.trans hsp) (by linarith)
        · exact le_min hpd.le (by linarith)
      · rw [hlist]
        rcases List.mem_cons.mp h with h' | h'
        · exact ih s t hs0 (hsp.trans hpt) htd hch hmem' x
            (Or.inr (Or.inl h'))
        · exact ih s t hs0 (hsp.trans hpt) htd hch hmem' x
            (Or.inr (Or.inr h'))

/-- C10: for every non-empty, ascending input of times in `[0, duration)`,
every input time is covered by some produced segment (each merged run's
segment contains all the run's times). -/
theorem buildSegments_cover (cd dur : ℚ) (ts : List ℚ) (hcd : 0 < cd)
    (hsort : List.Chain' (· ≤ ·) ts)
    (hmem : ∀ t ∈ ts, 0 ≤ t ∧ t < dur) :
    ∀ x ∈ ts, ∃ seg ∈ buildSegments cd dur ts, seg.1 ≤ x ∧ x ≤ seg.2 := by
  cases ts with
  | nil => intro x hx; cases hx
  | cons t ts =>
    intro x hx
    have hch : List.Chain (· ≤ ·) t ts := hsort
    have hx' : x = t ∨ x = t ∨ x ∈ ts := by
      rcases List.mem_cons.mp hx with h | h
      · exact Or.inl h
      · exact Or.inr (Or.inr h)
    exact buildLoop_cover cd dur hcd ts t t
      (hmem t (List.mem_cons_self t ts)).1 le_rfl
      (hmem t (List.mem_cons_self t ts)).2 hch
      (fun y hy => (hmem y (List.mem_cons_of_mem t hy)).2) x hx'

/-- C10, witness at input `[0, 0.1, 0.5]`, `chunk_duration = 0.1`,
`duration = 1`. -/
theorem buildSegments_cover_witness :
    ((0 : ℚ) < 1/10 ∧ List.Chain' (· ≤ ·) ([0, 1/10, 1/2] : List ℚ) ∧
      (∀ t ∈ ([0, 1/10, 1/2] : List ℚ), 0 ≤ t ∧ t < 1)) ∧
    ∀ x ∈ ([0, 1/10, 1/2] : List ℚ),
      ∃ seg ∈ buildSegments (1/10) 1 [0, 1/10, 1/2],
        seg.1 ≤ x ∧ x ≤ seg.2 := by
  have h1 : (0 : ℚ) < 1/10 := by norm_num
  have h2 : List.Chain' (· ≤ ·) ([0, 1/10, 1/2] : List ℚ) := by
    norm_num [List.chain'_cons, List.chain'_singleton]
  have h3 : ∀ t ∈ ([0, 1/10, 1/2] : List ℚ), 0 ≤ t ∧ t < 1 := by
    intro t ht
    fin_cases ht <;> norm_num
  exact ⟨⟨h1, h2, h3⟩, buildSegments_cover (1/10) 1 [0, 1/10, 1/2] h1 h2 h3⟩

/-- C9 counterexample: when the final write raises (here with an
out-of-space message), the run ends with an `error` event and
`media.close()` never executes — the close sits inside the `try` block
after the save, and the `except` clause does not close the handle. -/
theorem close_skipped_on_error_counterexample :
    ((run "a.wav" (1/25) (1/10)
        ⟨3/10, true, fun _ => 1, fun _ => false,
         some "No space left on device"⟩).mediaClosed = false) ∧
    ((run "a.wav" (1/25) (1/10)
        ⟨3/10, true, fun _ => 1, fun _ => false,
         some "No space left on device"⟩).events.getLast? =
      some (Event.error "No space left on device")) := by
  with_unfolding_all decide


/-- Branch shape: a non-audio-extension input whose container has no audio
track raises at line 35 and ends with the no-audio-track error. -/
theorem run_eq_noaudio (p : String) (θ cd : ℚ) (m : Media)
    (ha1 : is_audio_only p = false) (ha2 : m.hasAudio = false) :
    run p θ cd m =
      ⟨[Event.status "Loading media..."] ++
        [Event.error "No audio track found in the file!"], false, false, []⟩ := by
  simp [run, ha1, ha2]

/-- Branch shape: when the analysis loop raises, the events so far are
followed by a single error event carrying the exception message. -/
theorem run_eq_analysis_error (p : String) (θ cd : ℚ) (m : Media)
    (msg : String)
    (haud : is_audio_only p = false → m.hasAudio = true)
    (hA : (analysisOf cd m).2.2 = some msg) :
    run p θ cd m =
      ⟨([Event.status "Loading media...", Event.progress 10,
         Event.status "Analyzing audio..."] ++ (analysisOf cd m).2.1) ++
        [Event.error msg], false, false, []⟩ := by
  simp [run, hA]
  exact haud

/-- Branch shape: an empty non-silent list raises at line 69 after the
progress-50 and "Creating clips..." emissions. -/
theorem run_eq_nonsilent_empty (p : String) (θ cd : ℚ) (m : Media)
    (haud : is_audio_only p = false → m.hasAudio = true)
    (hA : (analysisOf cd m).2.2 = none)
    (hE : nonsilentOf θ cd m = []) :
    run p θ cd m =
      ⟨([Event.status "Loading media...", Event.progress 10,
         Event.status "Analyzing audio..."] ++ (analysisOf cd m).2.1 ++
        [Event.status "Detecting silent parts...", Event.progress 50,
         Event.status "Creating clips..."]) ++
        [Event.error "No non-silent parts found in the media!"],
       false, false, []⟩ := by
  simp [run, hA, hE]
  exact haud

/-- Branch shape: a failing write raises inside the `try`, after progress 70
and the saving status, and before `media.close()`. -/
theorem run_eq_save_error (p : String) (θ cd : ℚ) (m : Media) (msg : String)
    (haud : is_audio_only p = false → m.hasAudio = true)
    (hA : (analysisOf cd m).2.2 = none)
    (hE : nonsilentOf θ cd m ≠ [])
    (hS : m.saveFails = some msg) :
    run p θ cd m =
      ⟨([Event.status "Loading media...", Event.progress 10,
         Event.status "Analyzing audio..."] ++ (analysisOf cd m).2.1 ++
        [Event.status "Detecting silent parts...", Event.progress 50,
         Event.status "Creating clips...", Event.progress 70,
         Event.status "Combining clips...",
         Event.status (if is_audio_only p then "Saving audio..."
           else "Saving video...")]) ++ [Event.error msg],
       false, false,
       buildSegments cd m.duration (nonsilentOf θ cd m)⟩ := by
  simp [run, hA, hE, hS]
  exact haud

/-- Branch shape: the success path emits progress 100 and the `finished`
signal with the derived output path, after closing the media handle. -/
theorem run_eq_success (p : String) (θ cd : ℚ) (m : Media)
    (haud : is_audio_only p = false → m.hasAudio = true)
    (hA : (analysisOf cd m).2.2 = none)
    (hE : nonsilentOf θ cd m ≠ [])
    (hS : m.saveFails = none) :
    run p θ cd m =
      ⟨([Event.status "Loading media...", Event.progress 10,
         Event.status "Analyzing audio..."] ++ (analysisOf cd m).2.1 ++
        [Event.status "Detecting silent parts...", Event.progress 50,
         Event.status "Creating clips...", Event.progress 70,
         Event.status "Combining clips...",
         Event.status (if is_audio_only p then "Saving audio..."
           else "Saving video..."), Event.progress 100]) ++
        [Event.finished (output_path p)],
       true, true,
       buildSegments cd m.duration (nonsilentOf θ cd m)⟩ := by
  simp [run, hA, hE, hS]
  exact haud


/-- If the no-audio guard does not fire, a video input has an audio track. -/
theorem bool_not_noaudio (p : String) (m : Media)
    (h1 : ¬ (is_audio_only p = false ∧ m.hasAudio = false)) :
    is_audio_only p = false → m.hasAudio = true := by
  intro hfa
  cases hb : m.hasAudio with
  | false => exact absurd ⟨hfa, hb⟩ h1
  | true => rfl

/-- C9 amended: `media.close()` runs exactly on the success path — the
handle is closed if and only if the run's terminal event is `finished`;
on every failure path (no audio track, analysis error, no non-silent audio,
save error) the decode resources are never released, because the close call
sits inside the `try` after the save and the `except` clause does not close
the handle. -/
theorem run_close_iff_success (p : String) (θ cd : ℚ) (m : Media) :
    (run p θ cd m).mediaClosed = true ↔
      (∃ out, (run p θ cd m).events.getLast? = some (Event.finished out)) := by
  by_cases h1 : is_audio_only p = false ∧ m.hasAudio = false
  · rw [run_eq_noaudio p θ cd m h1.1 h1.2]
    simp [List.getLast?_concat]
  · have haud := bool_not_noaudio p m h1
    rcases hA : (analysisOf cd m).2.2 with _ | msg
    · by_cases hE : nonsilentOf θ cd m = []
      · rw [run_eq_nonsilent_empty p θ cd m haud hA hE]
        simp only [List.getLast?_concat]
        simp
      · rcases hS : m.saveFails with _ | msg2
        · rw [run_eq_success p θ cd m haud hA hE hS]
          simp only [List.getLast?_concat]
          simp
        · rw [run_eq_save_error p θ cd m msg2 haud hA hE hS]
          simp only [List.getLast?_concat]
          simp
    · rw [run_eq_analysis_error p θ cd m msg haud hA]
      simp only [List.getLast?_concat]
      simp

/-- Python `int()` agrees with the floor on non-negative rationals. -/
theorem pyInt_eq_floor (q : ℚ) (hq : 0 ≤ q) : pyInt q = ⌊q⌋ := by
  rw [pyInt, Int.tdiv_eq_ediv (Rat.num_nonneg.mpr hq) (Int.natCast_nonneg _),
    Rat.floor_def]

/-- With a non-zero `chunk_count` the analysis loop never raises: it
collects one `(t, level t)` sample per window whose chunk is not `None` and
emits one progress event per window. -/
theorem analyzeLoop_ok (m : Media) (cc : ℤ) (hcc : cc ≠ 0) :
    ∀ (l : List (ℕ × ℚ)) (chunks : List (ℚ × ℚ)) (evs : List Event),
      analyzeLoop m cc l (chunks, evs) =
        (chunks ++ (l.filter (fun it => !m.chunkNone it.2)).map
            (fun it => (it.2, m.level it.2)),
         evs ++ l.map (fun it =>
            Event.progress (10 + pyInt (((it.1 : ℚ) / (cc : ℚ)) * 30))),
         none) := by
  intro l
  induction l with
  | nil => intro chunks evs; simp [analyzeLoop]
  | cons it rest ih =>
    intro chunks evs
    obtain ⟨i, t⟩ := it
    simp only [analyzeLoop, if_neg hcc]
    by_cases hcn : m.chunkNone t
    · simp [hcn, ih, List.filter_cons]
    · simp [hcn, ih, List.filter_cons]

/-- The analysis walks `arangeLen` windows. -/
theorem windowStarts_length (cd dur : ℚ) :
    (windowStarts cd dur).length = arangeLen dur cd := by
  rw [windowStarts, List.length_map, List.length_range]

/-- Mapping a function of the index over an enumerated list is mapping it
over the index range. -/
theorem enum_map_progress (l : List ℚ) (cc : ℤ) :
    l.enum.map (fun it =>
        Event.progress (10 + pyInt (((it.1 : ℚ) / (cc : ℚ)) * 30))) =
      (List.range l.length).map (fun i : ℕ =>
        Event.progress (10 + pyInt (((i : ℚ) / (cc : ℚ)) * 30))) := by
  show l.enum.map ((fun i : ℕ =>
    Event.progress (10 + pyInt (((i : ℚ) / (cc : ℚ)) * 30))) ∘ Prod.fst) = _
  rw [← List.map_map, show l.enum = l.enumFrom 0 from rfl,
    List.enumFrom_map_fst, ← List.range_eq_range']

/-- If the analysis phase raises, it raised `ZeroDivisionError` on the very
first window, before emitting any analysis event. -/
theorem analysisOf_some (cd : ℚ) (m : Media) (msg : String)
    (h : (analysisOf cd m).2.2 = some msg) :
    (analysisOf cd m).2.1 = [] ∧ msg = "division by zero" := by
  by_cases hcc : chunkCount m cd = 0
  · rcases E : (windowStarts cd m.duration).enum with _ | ⟨⟨i, t⟩, rest⟩
    · rw [analysisOf, E] at h
      simp [analyzeLoop] at h
    · rw [analysisOf, E, hcc] at h ⊢
      simp [analyzeLoop] at h ⊢
      exact h.symm
  · rw [analysisOf, analyzeLoop_ok m _ hcc] at h
    simp at h

/-- When the analysis phase completes, its emitted events are exactly one
progress event per window, in window order. -/
theorem analysisOf_none_events (cd : ℚ) (m : Media)
    (h : (analysisOf cd m).2.2 = none) :
    (analysisOf cd m).2.1 =
      (List.range (arangeLen m.duration cd)).map (fun i : ℕ =>
        Event.progress
          (10 + pyInt (((i : ℚ) / (chunkCount m cd : ℚ)) * 30))) := by
  by_cases hcc : chunkCount m cd = 0
  · rcases E : (windowStarts cd m.duration).enum with _ | ⟨⟨i, t⟩, rest⟩
    · have hw : windowStarts cd m.duration = [] := by
        cases hw : windowStarts cd m.duration with
        | nil => rfl
        | cons a l => rw [hw] at E; simp at E
      have hlen : arangeLen m.duration cd = 0 := by
        rw [← windowStarts_length cd m.duration, hw]
        rfl
      rw [analysisOf, E, hlen]
      simp [analyzeLoop]
    · exfalso
      rw [analysisOf, E, hcc] at h
      simp [analyzeLoop] at h
  · rw [analysisOf, analyzeLoop_ok m _ hcc]
    simp only []
    rw [List.nil_append, enum_map_progress, windowStarts_length]


/-- `chunk_count` is positive as soon as one full chunk fits. -/
theorem chunkCount_pos (cd : ℚ) (m : Media) (hcd : 0 < cd)
    (hdur : cd ≤ m.duration) : 0 < chunkCount m cd := by
  have h0 : (0 : ℚ) ≤ m.duration / cd := div_nonneg (by linarith) hcd.le
  have h1 : (1 : ℚ) ≤ m.duration / cd := (le_div_iff₀ hcd).mpr (by linarith)
  rw [chunkCount, pyInt_eq_floor _ h0]
  exact lt_of_lt_of_le zero_lt_one (Int.le_floor.mpr (by exact_mod_cast h1))

/-- Every collected chunk sample is `(t, level t)` for a window start `t`. -/
theorem analysisOf_chunks_mem (cd : ℚ) (m : Media)
    (hcc : chunkCount m cd ≠ 0) (c : ℚ × ℚ)
    (hc : c ∈ (analysisOf cd m).1) :
    ∃ t ∈ windowStarts cd m.duration, c = (t, m.level t) := by
  rw [analysisOf, analyzeLoop_ok m _ hcc, List.nil_append] at hc
  rw [List.mem_map] at hc
  obtain ⟨it, hit, rfl⟩ := hc
  have hit' : it ∈ (windowStarts cd m.duration).enum :=
    List.mem_of_mem_filter hit
  rw [List.mem_enum_iff_getElem?] at hit'
  exact ⟨it.2, List.getElem?_mem hit', rfl⟩

/-- C4 amended: provided at least one full chunk fits
(`chunk_duration ≤ duration`, so `chunk_count ≥ 1`) and the media has an
audio track, a run in which every analyzed window's RMS level is at most
the threshold (equality counts as silent, since the test is strict
`volume > threshold`) has an empty classification result and terminates
with the "No non-silent parts found" error, writing no output file. -/
theorem all_silent_no_nonsilent_error (p : String) (θ cd : ℚ) (m : Media)
    (hcd : 0 < cd) (hdur : cd ≤ m.duration) (ha : m.hasAudio = true)
    (hsil : ∀ t ∈ windowStarts cd m.duration, m.level t ≤ θ) :
    (run p θ cd m).events.getLast? =
      some (Event.error "No non-silent parts found in the media!") ∧
    (run p θ cd m).wroteOutput = false ∧
    nonsilentOf θ cd m = [] := by
  have hcc : chunkCount m cd ≠ 0 := (chunkCount_pos cd m hcd hdur).ne'
  have hA : (analysisOf cd m).2.2 = none := by
    rw [analysisOf, analyzeLoop_ok m _ hcc]
  have hNS : nonsilentOf θ cd m = [] := by
    rw [nonsilentOf, List.map_eq_nil_iff, List.filter_eq_nil_iff]
    intro c hc
    obtain ⟨t, ht, rfl⟩ := analysisOf_chunks_mem cd m hcc c hc
    simp only [decide_eq_true_eq]
    exact not_lt.mpr (hsil t ht)
  have haud : is_audio_only p = false → m.hasAudio = true := fun _ => ha
  refine ⟨?_, ?_, hNS⟩
  · rw [run_eq_nonsilent_empty p θ cd m haud hA hNS]
    exact List.getLast?_concat _
  · rw [run_eq_nonsilent_empty p θ cd m haud hA hNS]

/-- C4 amended, witness: an all-silent two-window audio file. -/
theorem all_silent_no_nonsilent_error_witness :
    ((0 : ℚ) < 1/10 ∧
      (1/10 : ℚ) ≤ (Media.mk (1/5) true (fun _ => 0) (fun _ => false)
        none).duration ∧
      (∀ t ∈ windowStarts (1/10)
          (Media.mk (1/5) true (fun _ => 0) (fun _ => false) none).duration,
        (Media.mk (1/5) true (fun _ => 0) (fun _ => false) none).level t ≤ 1)) ∧
    ((run "b.wav" 1 (1/10)
        (Media.mk (1/5) true (fun _ => 0) (fun _ => false) none)).events.getLast? =
      some (Event.error "No non-silent parts found in the media!") ∧
     (run "b.wav" 1 (1/10)
        (Media.mk (1/5) true (fun _ => 0) (fun _ => false) none)).wroteOutput =
       false ∧
     nonsilentOf 1 (1/10)
        (Media.mk (1/5) true (fun _ => 0) (fun _ => false) none) = []) :=
  ⟨⟨by norm_num, by norm_num, fun t _ => by norm_num⟩,
    all_silent_no_nonsilent_error "b.wav" 1 (1/10) _ (by norm_num)
      (by norm_num) rfl (fun t _ => by norm_num)⟩


/-- Python `int()` is monotone on non-negative rationals. -/
theorem pyInt_mono (a b : ℚ) (ha : 0 ≤ a) (hab : a ≤ b) :
    pyInt a ≤ pyInt b := by
  rw [pyInt_eq_floor a ha, pyInt_eq_floor b (ha.trans hab)]
  exact Int.floor_mono hab

/-- Python `int()` of a non-negative rational is non-negative. -/
theorem pyInt_nonneg (a : ℚ) (ha : 0 ≤ a) : 0 ≤ pyInt a := by
  rw [pyInt_eq_floor a ha]
  exact Int.floor_nonneg.mpr ha

/-- Python `int()` of a rational at most 30 is at most 30. -/
theorem pyInt_le_thirty (a : ℚ) (ha : 0 ≤ a) (h : a ≤ 30) : pyInt a ≤ 30 := by
  rw [pyInt_eq_floor a ha]
  calc ⌊a⌋ ≤ ⌊(30 : ℚ)⌋ := Int.floor_mono h
    _ = 30 := by norm_num

/-- Each analysis progress value `10 + int((i / chunk_count) * 30)` lies in
`[10, 40]` (window index `i` never exceeds `chunk_count`). -/
theorem analysis_progress_bounds (cc : ℤ) (hcc : 0 ≤ cc) (n : ℕ)
    (hn : (n : ℤ) ≤ cc + 1) :
    ∀ i : ℕ, i < n →
      10 ≤ 10 + pyInt (((i : ℚ) / (cc : ℚ)) * 30) ∧
      10 + pyInt (((i : ℚ) / (cc : ℚ)) * 30) ≤ 40 := by
  intro i hi
  rcases eq_or_lt_of_le hcc with h0 | hpos
  · rw [← h0]
    push_cast
    rw [div_zero, zero_mul]
    rw [pyInt_eq_floor 0 le_rfl]
    norm_num
  · have h0a : 0 ≤ ((i : ℚ) / (cc : ℚ)) * 30 :=
      mul_nonneg (div_nonneg (Nat.cast_nonneg i) (by exact_mod_cast hcc))
        (by norm_num)
    have hile : (i : ℚ) ≤ (cc : ℚ) := by
      have hz : (i : ℤ) ≤ cc := by omega
      exact_mod_cast hz
    have hcq : (0 : ℚ) < (cc : ℚ) := by exact_mod_cast hpos
    have hx30 : ((i : ℚ) / (cc : ℚ)) * 30 ≤ 30 := by
      have hle1 : (i : ℚ) / (cc : ℚ) ≤ 1 := (div_le_one hcq).mpr hile
      nlinarith
    have hlo := pyInt_nonneg _ h0a
    have hhi := pyInt_le_thirty _ h0a hx30
    omega

/-- The analysis progress values are non-decreasing in the window index. -/
theorem analysis_progress_chain (cc : ℤ) (hcc : 0 ≤ cc) (n : ℕ) :
    List.Chain' (· ≤ ·) ((List.range n).map (fun i : ℕ =>
      (10 : ℤ) + pyInt (((i : ℚ) / (cc : ℚ)) * 30))) := by
  refine List.Pairwise.chain' (List.Pairwise.map _ ?_ (List.pairwise_le_range n))
  intro a b hab
  rcases eq_or_lt_of_le hcc with h0 | hpos
  · rw [← h0]
    push_cast
    simp only [div_zero, zero_mul, le_refl]
  · have h0a : 0 ≤ ((a : ℚ) / (cc : ℚ)) * 30 :=
      mul_nonneg (div_nonneg (Nat.cast_nonneg a) (by exact_mod_cast hcc))
        (by norm_num)
    have hcq : (0 : ℚ) < (cc : ℚ) := by exact_mod_cast hpos
    have hab' : (a : ℚ) ≤ (b : ℚ) := by exact_mod_cast hab
    have key : ((a : ℚ) / (cc : ℚ)) * 30 ≤ ((b : ℚ) / (cc : ℚ)) * 30 := by
      gcongr
    have := pyInt_mono _ _ h0a key
    omega

/-- The complete potential progress sequence of a run —
`10`, the analysis values, then `50, 70, 100` — is non-decreasing. -/
theorem full_progress_chain (cc : ℤ) (hcc : 0 ≤ cc) (n : ℕ)
    (hn : (n : ℤ) ≤ cc + 1) :
    List.Chain' (· ≤ ·)
      (((10 : ℤ) :: (List.range n).map (fun i : ℕ =>
          (10 : ℤ) + pyInt (((i : ℚ) / (cc : ℚ)) * 30))) ++ [50, 70, 100]) := by
  have hmem : ∀ v ∈ (List.range n).map (fun i : ℕ =>
      (10 : ℤ) + pyInt (((i : ℚ) / (cc : ℚ)) * 30)), 10 ≤ v ∧ v ≤ 40 := by
    intro v hv
    rw [List.mem_map] at hv
    obtain ⟨i, hi, rfl⟩ := hv
    exact analysis_progress_bounds cc hcc n hn i (List.mem_range.mp hi)
  apply List.Chain'.append
  · rw [List.chain'_cons']
    refine ⟨?_, analysis_progress_chain cc hcc n⟩
    intro y hy
    exact (hmem y (List.mem_of_mem_head? hy)).1
  · norm_num [List.chain'_cons, List.chain'_singleton]
  · intro x hx y hy
    have hy' : y = 50 := by simp at hy; omega
    have hx' : x ∈ (10 : ℤ) :: (List.range n).map (fun i : ℕ =>
        (10 : ℤ) + pyInt (((i : ℚ) / (cc : ℚ)) * 30)) :=
      List.mem_of_mem_getLast? hx
    rcases List.mem_cons.mp hx' with h | h
    · omega
    · have := (hmem x h).2
      omega

/-- Progress payload extraction undoes wrapping indices into progress
events. -/
theorem progressValues_progress_map (l : List ℕ) (f : ℕ → ℤ) :
    progressValues (l.map (fun i => Event.progress (f i))) = l.map f := by
  induction l with
  | nil => rfl
  | cons a l ih => simp [progressValues, List.filterMap_cons] at ih ⊢; exact ih

/-- Progress events are never terminal. -/
theorem filter_terminal_progress_map (l : List ℕ) (f : ℕ → ℤ) :
    (l.map (fun i => Event.progress (f i))).filter isTerminal = [] := by
  rw [List.filter_eq_nil_iff]
  intro a ha
  rw [List.mem_map] at ha
  obtain ⟨i, _, rfl⟩ := ha
  simp [isTerminal]


/-- `progressValues` evaluation: empty list. -/
theorem progressValues_nil : progressValues [] = [] := rfl

/-- `progressValues` evaluation: status events carry no progress. -/
theorem progressValues_status (s : String) (l : List Event) :
    progressValues (Event.status s :: l) = progressValues l := rfl

/-- `progressValues` evaluation: progress events contribute their payload. -/
theorem progressValues_progress (k : ℤ) (l : List Event) :
    progressValues (Event.progress k :: l) = k :: progressValues l := rfl

/-- `progressValues` evaluation: error events carry no progress. -/
theorem progressValues_error (s : String) (l : List Event) :
    progressValues (Event.error s :: l) = progressValues l := rfl

/-- `progressValues` evaluation: result events carry no progress. -/
theorem progressValues_finished (s : String) (l : List Event) :
    progressValues (Event.finished s :: l) = progressValues l := rfl

/-- `progressValues` distributes over append. -/
theorem progressValues_append (l1 l2 : List Event) :
    progressValues (l1 ++ l2) = progressValues l1 ++ progressValues l2 :=
  List.filterMap_append l1 l2 _

/-- C8: within one run the emitted progress values are non-decreasing
(`10`, then analysis values rising from 10 toward 40, then `50, 70, 100`,
truncated where the run fails), and the run emits exactly one terminal
event — `finished` or `error`, never both, never neither — as its very
last event, with no events of any kind after it. -/
theorem run_progress_monotone_terminal (p : String) (θ cd : ℚ) (m : Media)
    (hcd : 0 < cd) (hdur : 0 ≤ m.duration) :
    List.Chain' (· ≤ ·) (progressValues (run p θ cd m).events) ∧
    ∃ pre e, (run p θ cd m).events = pre ++ [e] ∧ isTerminal e = true ∧
      pre.filter isTerminal = [] := by
  have hdc : (0 : ℚ) ≤ m.duration / cd := div_nonneg hdur hcd.le
  have hcc0 : 0 ≤ chunkCount m cd := by
    rw [chunkCount, pyInt_eq_floor _ hdc]
    exact Int.floor_nonneg.mpr hdc
  have hn : ((arangeLen m.duration cd : ℕ) : ℤ) ≤ chunkCount m cd + 1 := by
    rw [chunkCount, pyInt_eq_floor _ hdc, arangeLen]
    have h1 := Int.ceil_le_floor_add_one (m.duration / cd)
    have h3 : 0 ≤ ⌊m.duration / cd⌋ := Int.floor_nonneg.mpr hdc
    omega
  have hFull := full_progress_chain (chunkCount m cd) hcc0
    (arangeLen m.duration cd) hn
  simp only [List.cons_append] at hFull
  by_cases h1 : is_audio_only p = false ∧ m.hasAudio = false
  · rw [run_eq_noaudio p θ cd m h1.1 h1.2]
    exact ⟨by simp [progressValues_append, progressValues_status,
        progressValues_error, progressValues_nil],
      ⟨[Event.status "Loading media..."],
       Event.error "No audio track found in the file!", rfl, rfl, rfl⟩⟩
  · have haud := bool_not_noaudio p m h1
    rcases hA : (analysisOf cd m).2.2 with _ | msg
    · have hEvA := analysisOf_none_events cd m hA
      by_cases hE : nonsilentOf θ cd m = []
      · rw [run_eq_nonsilent_empty p θ cd m haud hA hE]
        constructor
        · show List.Chain' (· ≤ ·) (progressValues _)
          rw [hEvA]
          simp only [progressValues_append, progressValues_status,
            progressValues_progress, progressValues_error,
            progressValues_nil, progressValues_progress_map,
            List.cons_append, List.nil_append, List.append_nil]
          exact List.Chain'.prefix hFull ⟨[70, 100], by simp⟩
        · refine ⟨_, _, rfl, rfl, ?_⟩
          rw [hEvA]
          simp [List.filter_append, filter_terminal_progress_map, isTerminal]
      · rcases hS : m.saveFails with _ | msg2
        · rw [run_eq_success p θ cd m haud hA hE hS]
          constructor
          · show List.Chain' (· ≤ ·) (progressValues _)
            rw [hEvA]
            simp only [progressValues_append, progressValues_status,
              progressValues_progress, progressValues_error,
              progressValues_finished, progressValues_nil,
              progressValues_progress_map, List.cons_append,
              List.nil_append, List.append_nil]
            exact hFull
          · refine ⟨_, _, rfl, rfl, ?_⟩
            rw [hEvA]
            simp [List.filter_append, filter_terminal_progress_map, isTerminal]
        · rw [run_eq_save_error p θ cd m msg2 haud hA hE hS]
          constructor
          · show List.Chain' (· ≤ ·) (progressValues _)
            rw [hEvA]
            simp only [progressValues_append, progressValues_status,
              progressValues_progress, progressValues_error,
              progressValues_nil, progressValues_progress_map,
              List.cons_append, List.nil_append, List.append_nil]
            exact List.Chain'.prefix hFull ⟨[100], by simp⟩
          · refine ⟨_, _, rfl, rfl, ?_⟩
            rw [hEvA]
            simp [List.filter_append, filter_terminal_progress_map, isTerminal]
    · obtain ⟨hEvA0, hmsg⟩ := analysisOf_some cd m msg hA
      rw [run_eq_analysis_error p θ cd m msg haud hA]
      constructor
      · show List.Chain' (· ≤ ·) (progressValues _)
        rw [hEvA0]
        simp only [progressValues_append, progressValues_status,
          progressValues_progress, progressValues_error, progressValues_nil,
          List.cons_append, List.nil_append, List.append_nil]
        exact List.chain'_singleton _
      · refine ⟨_, _, rfl, rfl, ?_⟩
        rw [hEvA0]
        simp [List.filter_append, isTerminal]

/-- C8, witness: a successful three-window audio run. -/
theorem run_progress_monotone_terminal_witness :
    ((0 : ℚ) < 1/10 ∧
      (0 : ℚ) ≤ (Media.mk (3/10) true (fun _ => 1) (fun _ => false)
        none).duration) ∧
    (List.Chain' (· ≤ ·) (progressValues
        (run "c.wav" (1/25) (1/10)
          (Media.mk (3/10) true (fun _ => 1) (fun _ => false) none)).events) ∧
     ∃ pre e,
       (run "c.wav" (1/25) (1/10)
          (Media.mk (3/10) true (fun _ => 1) (fun _ => false) none)).events =
         pre ++ [e] ∧ isTerminal e = true ∧ pre.filter isTerminal = []) :=
  ⟨⟨by norm_num, by norm_num⟩,
    run_progress_monotone_terminal "c.wav" (1/25) (1/10) _ (by norm_num)
      (by norm_num)⟩

end CutZero
